import Mathlib

/-!
# Verification of `services/diff_extractor.py`

A shallow embedding of the module's three functions:

* `extract_key_fields` — heuristic regex extraction of four fields from claim
  text.  Python's `re.search` (leftmost match, backtracking with left-biased
  alternation and greedy quantifiers) is embedded by `runs`, which returns every
  way a regex can match a prefix of a string, in backtracking priority order,
  together with the contents of the (single) capture group; `searchM` scans
  start positions left to right and takes the highest-priority match.
  Character classes `\d`, `\s`, `\w`-like sets are modelled over their ASCII
  fragment, which covers all inputs the patterns themselves mention.
* `compute_differences` — structural diff of two field records (Python dicts
  with string-or-`None` values, embedded as association lists).
* `key_fields_indicate_different_claim` — threshold classifier over the diff.
-/

/-- ASCII whitespace recognised by Python's `\s` and `str.strip()`
(space, tab, newline, carriage return, vertical tab, form feed). -/
def isPySpace (c : Char) : Bool :=
  c = ' ' || c = '\t' || c = '\n' || c = '\r' || c = '\x0b' || c = '\x0c'

/-- Python `str.strip()`: drop leading and trailing whitespace. -/
def pyStrip (l : List Char) : List Char :=
  ((l.dropWhile isPySpace).reverse.dropWhile isPySpace).reverse

/-- Regex abstract syntax: exactly the constructs the module's patterns use.
`cls` is a character class, `rep r lo hi` is the bounded quantifier
`r{lo,hi}`, `group` is the (unique) capturing group of a pattern. -/
inductive RE where
  | eps
  | cls (p : Char → Bool)
  | cat (r₁ r₂ : RE)
  | alt (r₁ r₂ : RE)
  | opt (r : RE)
  | star (r : RE)
  | rep (r : RE) (lo hi : Nat)
  | group (r : RE)

/-- One way a regex can match a prefix of the input: the remaining suffix and
the capture-group contents (if the group participated in the match). -/
abbrev MRes := List Char × Option (List Char)

/-- Later capture wins (Python: a group records its last successful match);
with a single group at most one side is set. -/
def capOr (x y : Option (List Char)) : Option (List Char) :=
  match x with
  | some c => some c
  | none => y

/-- All matches of `r*` (greedy: more iterations first).  Each iteration must
consume at least one character, as CPython stops repeating on an empty match;
`fuel` bounds the iteration count and `s.length` is always sufficient. -/
def starRuns (f : List Char → List MRes) : Nat → List Char → List MRes
  | 0, s => [(s, none)]
  | fuel + 1, s =>
      ((f s).filter (fun a => a.1.length < s.length)).flatMap
        (fun a => (starRuns f fuel a.1).map (fun b => (b.1, capOr b.2 a.2)))
      ++ [(s, none)]

/-- All matches of `r{lo,hi}` (greedy: more iterations first). -/
def repRuns (f : List Char → List MRes) : Nat → Nat → List Char → List MRes
  | 0, 0, s => [(s, none)]
  | _ + 1, 0, _ => []
  | 0, hi + 1, s =>
      (f s).flatMap
        (fun a => (repRuns f 0 hi a.1).map (fun b => (b.1, capOr b.2 a.2)))
      ++ [(s, none)]
  | lo + 1, hi + 1, s =>
      (f s).flatMap
        (fun a => (repRuns f lo hi a.1).map (fun b => (b.1, capOr b.2 a.2)))

/-- Every way `r` matches a prefix of `s`, in backtracking priority order:
alternation is left-biased, `?`/`*`/`{lo,hi}` are greedy.  The head of the
list is the match Python's engine produces at this start position. -/
def runs : RE → List Char → List MRes
  | .eps, s => [(s, none)]
  | .cls p, s =>
      match s with
      | [] => []
      | c :: rest => if p c then [(rest, none)] else []
  | .cat r₁ r₂, s =>
      (runs r₁ s).flatMap
        (fun a => (runs r₂ a.1).map (fun b => (b.1, capOr b.2 a.2)))
  | .alt r₁ r₂, s => runs r₁ s ++ runs r₂ s
  | .opt r, s => runs r s ++ [(s, none)]
  | .star r, s => starRuns (fun t => runs r t) s.length s
  | .rep r lo hi, s => repRuns (fun t => runs r t) lo hi s
  | .group r, s =>
      (runs r s).map (fun a => (a.1, some (s.take (s.length - a.1.length))))

/-- Python `re.search`: scan start positions left to right, return the first
position's highest-priority match.  `none` = no match anywhere; `some cap` =
matched, with `cap` the capture group's contents (`none` when the group did
not participate — then `m.group(1)` is Python `None`). -/
def searchM (r : RE) : List Char → Option (Option (List Char))
  | [] =>
      match runs r [] with
      | (_, cap) :: _ => some cap
      | [] => none
  | c :: t =>
      match runs r (c :: t) with
      | (_, cap) :: _ => some cap
      | [] => searchM r t

/-- `m.group(1).strip()` applied to the result of a search, collapsed to an
`Option`.  The `getD []` default is unreachable for the module's patterns
(their group always participates); `tryPatternE` keeps that case explicit. -/
def tryPattern (r : RE) (s : List Char) : Option String :=
  (searchM r s).map (fun cap => String.mk (pyStrip (cap.getD [])))

/-- Exception-explicit variant: `m.group(1)` being Python `None` would make
`.strip()` raise `AttributeError`. -/
def tryPatternE (r : RE) (s : List Char) : Except String (Option String) :=
  match searchM r s with
  | none => Except.ok none
  | some none => Except.error "AttributeError: NoneType has no attribute strip"
  | some (some g) => Except.ok (some (String.mk (pyStrip g)))

/-! ## The module's patterns (all compiled with `re.I` except the bare date
pattern, whose characters are caseless anyway) -/

/-- A case-insensitive literal character. -/
def chr (c : Char) : RE := .cls (fun d => d.toLower = c.toLower)

/-- A case-insensitive literal string. -/
def lit (l : List Char) : RE := l.foldr (fun c r => .cat (chr c) r) .eps

/-- `r+` is `r r*`. -/
def plus (r : RE) : RE := .cat r (.star r)

/-- `[\d,]` -/
def clsDigitComma : RE := .cls (fun c => c.isDigit || c = ',')
/-- `[^\d]` -/
def clsNonDigit : RE := .cls (fun c => !c.isDigit)
/-- `[:\s]` -/
def clsColonSpace : RE := .cls (fun c => c = ':' || isPySpace c)
/-- `\s` -/
def clsSpace : RE := .cls isPySpace
/-- `\d` -/
def clsDigit : RE := .cls Char.isDigit
/-- `[A-Za-z0-9\-\/]` (source spells the class with `\-` then a slash) -/
def clsPolicyTok : RE := .cls (fun c => c.isAlpha || c.isDigit || c = '-' || c = '/')
/-- `[/\-]` -/
def clsDateSep : RE := .cls (fun c => c = '/' || c = '-')
/-- `[A-Za-z\s]` -/
def clsNameTok : RE := .cls (fun c => c.isAlpha || isPySpace c)

/-- `([\d,]+(?:\.\d+)?)` — shared capture group of the six amount patterns. -/
def amtGroup : RE :=
  .group (.cat (plus clsDigitComma) (.opt (.cat (chr '.') (plus clsDigit))))

/-- `treatment\s*cost[:\s]*[^\d]*([\d,]+(?:\.\d+)?)` -/
def P_amt1 : RE :=
  .cat (lit "treatment".data) (.cat (.star clsSpace) (.cat (lit "cost".data)
    (.cat (.star clsColonSpace) (.cat (.star clsNonDigit) amtGroup))))

/-- `[Rr]s\.?\s*([\d,]+(?:\.\d+)?)\s*(?:L|Lakh)?` -/
def P_amt2 : RE :=
  .cat (chr 'r') (.cat (chr 's') (.cat (.opt (chr '.')) (.cat (.star clsSpace)
    (.cat amtGroup (.cat (.star clsSpace)
      (.opt (.alt (lit "l".data) (lit "lakh".data))))))))

/-- `₹\s*([\d,]+(?:\.\d+)?)\s*(?:L|Lakh)?` -/
def P_amt3 : RE :=
  .cat (chr '₹') (.cat (.star clsSpace)
    (.cat amtGroup (.cat (.star clsSpace)
      (.opt (.alt (lit "l".data) (lit "lakh".data))))))

/-- `([\d,]+(?:\.\d+)?)\s*(?:L|Lakh|INR)` -/
def P_amt4 : RE :=
  .cat amtGroup (.cat (.star clsSpace)
    (.alt (lit "l".data) (.alt (lit "lakh".data) (lit "inr".data))))

/-- `claim\s*amount[:\s]+([\d,]+(?:\.\d+)?)` -/
def P_amt5 : RE :=
  .cat (lit "claim".data) (.cat (.star clsSpace) (.cat (lit "amount".data)
    (.cat (plus clsColonSpace) amtGroup)))

/-- `amount[:\s]+([\d,]+(?:\.\d+)?)` -/
def P_amt6 : RE :=
  .cat (lit "amount".data) (.cat (plus clsColonSpace) amtGroup)

/-- The six amount patterns, in the module's order. -/
def AMOUNT_PATTERNS : List RE := [P_amt1, P_amt2, P_amt3, P_amt4, P_amt5, P_amt6]

/-- `policy\s*(?:no|number|#)?[:\s]*([A-Za-z0-9\-\/]+)` (the class is spelled
with `\-` then a slash in the source) -/
def P_policy : RE :=
  .cat (lit "policy".data) (.cat (.star clsSpace)
    (.cat (.opt (.alt (lit "no".data) (.alt (lit "number".data) (lit "#".data))))
      (.cat (.star clsColonSpace) (.group (plus clsPolicyTok)))))

/-- `(\d{1,2}[/\-]\d{1,2}[/\-]\d{2,4})` — shared capture group of the three
date patterns. -/
def dateGroup : RE :=
  .group (.cat (.rep clsDigit 1 2) (.cat clsDateSep
    (.cat (.rep clsDigit 1 2) (.cat clsDateSep (.rep clsDigit 2 4)))))

/-- `date\s+of\s+incident[:\s]*(…date…)` -/
def P_date1 : RE :=
  .cat (lit "date".data) (.cat (plus clsSpace) (.cat (lit "of".data)
    (.cat (plus clsSpace) (.cat (lit "incident".data)
      (.cat (.star clsColonSpace) dateGroup)))))

/-- `(?:incident|date|loss|accident)\s*(?:date)?[:\s]*(…date…)` -/
def P_date2 : RE :=
  .cat (.alt (lit "incident".data) (.alt (lit "date".data)
      (.alt (lit "loss".data) (lit "accident".data))))
    (.cat (.star clsSpace) (.cat (.opt (lit "date".data))
      (.cat (.star clsColonSpace) dateGroup)))

/-- `(\d{1,2}[/\-]\d{1,2}[/\-]\d{2,4})` bare (compiled without `re.I`, which
changes nothing: it contains no cased characters). -/
def P_date3 : RE := dateGroup

/-- `([A-Za-z\s]{2,50})` — shared capture group of the two name patterns. -/
def nameGroup : RE := .group (.rep clsNameTok 2 50)

/-- `policy\s*holder\s*name[:\s]*([A-Za-z\s]{2,50})` -/
def P_name1 : RE :=
  .cat (lit "policy".data) (.cat (.star clsSpace) (.cat (lit "holder".data)
    (.cat (.star clsSpace) (.cat (lit "name".data)
      (.cat (.star clsColonSpace) nameGroup)))))

/-- `(?:claimant|name|insured)[:\s]*([A-Za-z\s]{2,50})` -/
def P_name2 : RE :=
  .cat (.alt (lit "claimant".data) (.alt (lit "name".data) (lit "insured".data)))
    (.cat (.star clsColonSpace) nameGroup)

/-! ## The three functions of the module -/

/-- A Python dict with string-or-`None` values, as an association list in
insertion order. -/
abbrev FieldRecord := List (String × Option String)

/-- `d.get(key)`: `none` both when the key is absent and when it maps to
Python `None` — exactly how `compute_differences` reads its inputs. -/
def dictGet (r : FieldRecord) (k : String) : Option String :=
  match r.lookup k with
  | some v => v
  | none => none

/-- The amount loop: `for p in amount_patterns: … break`. -/
def firstAmount : List RE → List Char → Option String
  | [], _ => none
  | p :: ps, s =>
      match tryPattern p s with
      | some v => some v
      | none => firstAmount ps s

/-- The three-tier date fallback. -/
def datePlain (s : List Char) : Option String :=
  match tryPattern P_date1 s with
  | some v => some v
  | none =>
      match tryPattern P_date2 s with
      | some v => some v
      | none => tryPattern P_date3 s

/-- The two-tier name fallback. -/
def namePlain (s : List Char) : Option String :=
  match tryPattern P_name1 s with
  | some v => some v
  | none => tryPattern P_name2 s

/-- `extract_key_fields(text)`.  The record literal's insertion order is
`claim_amount, claimant_name, incident_date, policy_number`; the matched
name is additionally truncated to 80 characters (`[:80]`). -/
def extract_key_fields (text : String) : FieldRecord :=
  let s := text.data
  [("claim_amount", firstAmount AMOUNT_PATTERNS s),
   ("claimant_name", (namePlain s).map (fun v => String.mk (v.data.take 80))),
   ("incident_date", datePlain s),
   ("policy_number", tryPattern P_policy s)]

/-- Exception-explicit amount loop. -/
def firstAmountE : List RE → List Char → Except String (Option String)
  | [], _ => Except.ok none
  | p :: ps, s =>
      match tryPatternE p s with
      | Except.error e => Except.error e
      | Except.ok (some v) => Except.ok (some v)
      | Except.ok none => firstAmountE ps s

/-- Exception-explicit date tiers. -/
def dateE (s : List Char) : Except String (Option String) :=
  match tryPatternE P_date1 s with
  | Except.error e => Except.error e
  | Except.ok (some v) => Except.ok (some v)
  | Except.ok none =>
      match tryPatternE P_date2 s with
      | Except.error e => Except.error e
      | Except.ok (some v) => Except.ok (some v)
      | Except.ok none => tryPatternE P_date3 s

/-- Exception-explicit name tiers. -/
def nameE (s : List Char) : Except String (Option String) :=
  match tryPatternE P_name1 s with
  | Except.error e => Except.error e
  | Except.ok (some v) => Except.ok (some v)
  | Except.ok none => tryPatternE P_name2 s

/-- `extract_key_fields` with Python's only latent raise point
(`m.group(1)` = `None`, then `.strip()` raises) made explicit. -/
def extract_key_fieldsE (text : String) : Except String FieldRecord :=
  let s := text.data
  match firstAmountE AMOUNT_PATTERNS s with
  | Except.error e => Except.error e
  | Except.ok amount =>
      match nameE s with
      | Except.error e => Except.error e
      | Except.ok name =>
          match dateE s with
          | Except.error e => Except.error e
          | Except.ok date =>
              match tryPatternE P_policy s with
              | Except.error e => Except.error e
              | Except.ok policy =>
                  Except.ok
                    [("claim_amount", amount),
                     ("claimant_name", name.map (fun v => String.mk (v.data.take 80))),
                     ("incident_date", date),
                     ("policy_number", policy)]

/-- `CRITICAL_CLAIM_FIELDS` module constant. -/
def CRITICAL_CLAIM_FIELDS : List String :=
  ["policy_number", "claimant_name", "claim_amount", "incident_date"]

/-- One `{field, old_value, new_value}` entry of `compute_differences`. -/
structure DiffEntry where
  field : String
  old_value : String
  new_value : String
deriving DecidableEq, Repr

/-- `str(v) if v is not None else "—"`. -/
def renderVal : Option String → String
  | some s => s
  | none => "—"

/-- `set(new_fields) | set(existing_fields)`: the union of key sets, as a
duplicate-free list (Python's set iteration order is arbitrary; the module's
contract is order-irrelevant). -/
def keysUnion (new_fields existing_fields : FieldRecord) : List String :=
  (new_fields.map Prod.fst ++ existing_fields.map Prod.fst).dedup

/-- `compute_differences(new_fields, existing_fields)`. -/
def compute_differences (new_fields existing_fields : FieldRecord) : List DiffEntry :=
  (keysUnion new_fields existing_fields).filterMap (fun key =>
    let ov := dictGet existing_fields key
    let nv := dictGet new_fields key
    if ov = none ∧ nv = none then none
    else if ov ≠ nv then
      some ⟨key, renderVal ov, renderVal nv⟩
    else none)

/-- Default of the `min_differences` parameter. -/
def DEFAULT_MIN_DIFFERENCES : Int := 2

/-- `key_fields_indicate_different_claim(new_fields, existing_fields,
min_differences)`. -/
def key_fields_indicate_different_claim (new_fields existing_fields : FieldRecord)
    (min_differences : Int) : Bool :=
  let diffs := compute_differences new_fields existing_fields
  let critical_diffs := diffs.filter (fun d => CRITICAL_CLAIM_FIELDS.contains d.field)
  decide ((critical_diffs.length : Int) ≥ min_differences)

/-- The classifier at its default threshold. -/
def key_fields_indicate_different_claim_default
    (new_fields existing_fields : FieldRecord) : Bool :=
  key_fields_indicate_different_claim new_fields existing_fields DEFAULT_MIN_DIFFERENCES

/-! ## Helper lemmas on records and diffs -/

/-- A key with a non-`none` `dictGet` is present in the record. -/
lemma dictGet_ne_none_mem (r : FieldRecord) (k : String)
    (h : dictGet r k ≠ none) : k ∈ r.map Prod.fst := by
  induction r with
  | nil => simp [dictGet, List.lookup] at h
  | cons kv rest ih =>
      obtain ⟨k1, v1⟩ := kv
      by_cases hk : k = k1
      · simp [hk]
      · have hbeq : (k == k1) = false := beq_false_of_ne hk
        have h' : dictGet rest k ≠ none := by
          simpa [dictGet, List.lookup, hbeq] using h
        simp [ih h']

/-- Membership in `keysUnion` is membership in either key list. -/
lemma mem_keysUnion (nf ef : FieldRecord) (k : String) :
    k ∈ keysUnion nf ef ↔ k ∈ nf.map Prod.fst ∨ k ∈ ef.map Prod.fst := by
  simp [keysUnion, List.mem_dedup]

/-- The body of `compute_differences`, named for reuse in proofs. -/
def diffBody (nf ef : FieldRecord) (key : String) : Option DiffEntry :=
  if dictGet ef key = none ∧ dictGet nf key = none then none
  else if dictGet ef key ≠ dictGet nf key then
    some ⟨key, renderVal (dictGet ef key), renderVal (dictGet nf key)⟩
  else none

lemma compute_differences_eq (nf ef : FieldRecord) :
    compute_differences nf ef = (keysUnion nf ef).filterMap (diffBody nf ef) := rfl

/-- The body produces `some` exactly on keys whose values differ, and the
entry it produces is determined by the two values. -/
lemma diffBody_eq_some (nf ef : FieldRecord) (k : String) (e : DiffEntry) :
    diffBody nf ef k = some e ↔
      (dictGet nf k ≠ dictGet ef k ∧
       e = ⟨k, renderVal (dictGet ef k), renderVal (dictGet nf k)⟩) := by
  unfold diffBody
  by_cases h1 : dictGet ef k = none ∧ dictGet nf k = none
  · rw [if_pos h1]
    simp [h1.1, h1.2]
  · rw [if_neg h1]
    by_cases h2 : dictGet ef k ≠ dictGet nf k
    · rw [if_pos h2]
      constructor
      · intro he
        exact ⟨Ne.symm h2, (Option.some_inj.mp he).symm⟩
      · rintro ⟨_, he⟩
        rw [he]
    · rw [if_neg h2]
      push_neg at h2
      simp [h2]

/-- A produced entry's `field` is the key it came from. -/
lemma diffBody_field (nf ef : FieldRecord) (k : String) (e : DiffEntry)
    (h : diffBody nf ef k = some e) : e.field = k := by
  rcases (diffBody_eq_some nf ef k e).mp h with ⟨_, he⟩
  rw [he]

/-- Membership characterisation of `compute_differences`: an entry is present
iff its field's two values differ and it carries their rendered forms. -/
lemma mem_compute_differences (nf ef : FieldRecord) (e : DiffEntry) :
    e ∈ compute_differences nf ef ↔
      (dictGet nf e.field ≠ dictGet ef e.field ∧
       e.old_value = renderVal (dictGet ef e.field) ∧
       e.new_value = renderVal (dictGet nf e.field)) := by
  rw [compute_differences_eq, List.mem_filterMap]
  constructor
  · rintro ⟨k, _, hg⟩
    rcases (diffBody_eq_some nf ef k e).mp hg with ⟨hne, he⟩
    subst he
    exact ⟨hne, rfl, rfl⟩
  · rintro ⟨hne, ho, hn⟩
    refine ⟨e.field, ?_, ?_⟩
    · rw [mem_keysUnion]
      by_cases hn' : dictGet nf e.field = none
      · refine Or.inr (dictGet_ne_none_mem ef e.field ?_)
        intro hc; exact hne (hn'.trans hc.symm)
      · exact Or.inl (dictGet_ne_none_mem nf e.field hn')
    · refine (diffBody_eq_some nf ef e.field e).mpr ⟨hne, ?_⟩
      cases e
      simp_all

/-- `filterMap` of a field-preserving body over a duplicate-free key list has
duplicate-free fields. -/
lemma filterMap_field_nodup (g : String → Option DiffEntry)
    (hg : ∀ k e, g k = some e → e.field = k) :
    ∀ l : List String, l.Nodup → ((l.filterMap g).map DiffEntry.field).Nodup := by
  intro l
  induction l with
  | nil => simp
  | cons k t ih =>
      intro h
      rcases List.nodup_cons.mp h with ⟨hk, ht⟩
      cases hgk : g k with
      | none => simpa [List.filterMap_cons, hgk] using ih ht
      | some e =>
          simp only [List.filterMap_cons, hgk, List.map_cons, List.nodup_cons]
          refine ⟨?_, ih ht⟩
          intro hmem
          rcases List.mem_map.mp hmem with ⟨e', he', hfe⟩
          rcases List.mem_filterMap.mp he' with ⟨k', hk', hgk'⟩
          rw [hg k e hgk] at hfe
          rw [hg k' e' hgk'] at hfe
          exact hk (hfe ▸ hk')

/-! ## Claim theorems: diff computer and classifier -/

/-- **C4.** `compute_differences` returns exactly one difference entry per key
whose two values differ (null vs non-null differs; equal or both-null keys
produce no entry), and each entry renders a null value as `"—"` and a non-null
value as itself.  Keys outside the union of the two keysets read as null on
both sides, so they never differ. -/
theorem compute_differences_one_entry_per_differing_key (nf ef : FieldRecord) :
    ((compute_differences nf ef).map DiffEntry.field).Nodup ∧
    ∀ e : DiffEntry,
      (e ∈ compute_differences nf ef ↔
        (dictGet nf e.field ≠ dictGet ef e.field ∧
         e.old_value = renderVal (dictGet ef e.field) ∧
         e.new_value = renderVal (dictGet nf e.field))) := by
  constructor
  · rw [compute_differences_eq]
    exact filterMap_field_nodup _ (diffBody_field nf ef) _ (List.nodup_dedup _)
  · exact mem_compute_differences nf ef

/-- **C7.** Swapping the two records reports the same differing fields with
`old_value` and `new_value` swapped. -/
theorem compute_differences_swap (a b : FieldRecord) :
    ∀ e : DiffEntry,
      e ∈ compute_differences a b ↔
        (⟨e.field, e.new_value, e.old_value⟩ : DiffEntry) ∈ compute_differences b a := by
  intro e
  rw [mem_compute_differences, mem_compute_differences]
  constructor
  · rintro ⟨h1, h2, h3⟩
    exact ⟨h1.symm, h3, h2⟩
  · rintro ⟨h1, h2, h3⟩
    exact ⟨h1.symm, h3, h2⟩

/-- **C8.** `compute_differences(a, a)` is empty. -/
theorem compute_differences_self_empty (a : FieldRecord) :
    compute_differences a a = [] := by
  rw [compute_differences_eq]
  rw [List.filterMap_eq_nil_iff]
  intro k _
  unfold diffBody
  by_cases h : dictGet a k = none ∧ dictGet a k = none
  · rw [if_pos h]
  · rw [if_neg h, if_neg (fun hc => hc rfl)]

/-- **C2.** The classifier returns `true` iff at least `min_differences`
entries of `compute_differences` have their field in the critical set
`{policy_number, claimant_name, claim_amount, incident_date}`; the default
threshold is 2. -/
theorem key_fields_indicate_different_claim_iff :
    (∀ (nf ef : FieldRecord) (m : Int),
       key_fields_indicate_different_claim nf ef m = true ↔
         m ≤ (((compute_differences nf ef).filter
            (fun d => (["policy_number", "claimant_name", "claim_amount",
                        "incident_date"] : List String).contains d.field)).length : Int)) ∧
    DEFAULT_MIN_DIFFERENCES = 2 := by
  refine ⟨?_, rfl⟩
  intro nf ef m
  unfold key_fields_indicate_different_claim
  rw [decide_eq_true_eq]
  exact ge_iff_le

/-- **C9.** A non-positive threshold makes the classifier return `true`
unconditionally, identical records included. -/
theorem key_fields_true_of_nonpositive (nf ef : FieldRecord) (m : Int)
    (h : m ≤ 0) :
    key_fields_indicate_different_claim nf ef m = true := by
  unfold key_fields_indicate_different_claim
  exact decide_eq_true (le_trans h (Int.natCast_nonneg _))

theorem key_fields_true_of_nonpositive_witness :
    (0 : Int) ≤ 0 ∧ key_fields_indicate_different_claim [] [] 0 = true :=
  ⟨le_refl 0, key_fields_true_of_nonpositive [] [] 0 (le_refl 0)⟩

/-! ## Claim theorems: extractor output shape and Scenario A -/

/-- **C6.** For every text the extracted record has exactly the four keys
`claim_amount, claimant_name, incident_date, policy_number`, in that order,
and every value is null or a string. -/
theorem extract_key_fields_keys (text : String) :
    (extract_key_fields text).map Prod.fst =
      ["claim_amount", "claimant_name", "incident_date", "policy_number"] ∧
    ∀ kv ∈ extract_key_fields text, kv.2 = none ∨ ∃ s : String, kv.2 = some s := by
  constructor
  · rfl
  · intro kv _
    cases h : kv.2 with
    | none => exact Or.inl rfl
    | some s => exact Or.inr ⟨s, rfl⟩

theorem extract_key_fields_keys_witness :
    ("claim_amount", (none : Option String)) ∈ extract_key_fields "x" ∧
    ((("claim_amount", (none : Option String)) : String × Option String).2 = none ∨
      ∃ s : String, (("claim_amount", (none : Option String)) : String × Option String).2 = some s) :=
  ⟨by decide, (extract_key_fields_keys "x").2 _ (by decide)⟩

/-- The Scenario A text of the specification. -/
def scenarioA : String :=
  "Policy Holder Name: John Smith, Date of Incident: 12/05/2023, Policy No: ABC-123, Treatment Cost 54,300"

/-- **C1, counterexample.** On the Scenario A text the policy pattern's first
match in the text is at "Policy Holder", capturing `"Holder"`, so the claimed
output (`policy_number = "ABC-123"`) is not what the code produces. -/
theorem scenarioA_claim_false :
    ¬(dictGet (extract_key_fields scenarioA) "claimant_name" = some "John Smith" ∧
      dictGet (extract_key_fields scenarioA) "incident_date" = some "12/05/2023" ∧
      dictGet (extract_key_fields scenarioA) "policy_number" = some "ABC-123" ∧
      dictGet (extract_key_fields scenarioA) "claim_amount" = some "54,300") := by
  rintro ⟨-, -, h3, -⟩
  have hv : dictGet (extract_key_fields scenarioA) "policy_number" = some "Holder" := by
    rfl
  rw [hv] at h3
  simp at h3

/-- **C1, amended.** On the Scenario A text the code extracts
`claimant_name = "John Smith"`, `incident_date = "12/05/2023"`,
`claim_amount = "54,300"`, but `policy_number = "Holder"`: `re.search` finds
the leftmost match of `policy\s*(?:no|number|#)?[:\s]*([A-Za-z0-9\-\/]+)`,
which is at "Policy Holder …", not at "Policy No: ABC-123". -/
theorem scenarioA_extraction :
    dictGet (extract_key_fields scenarioA) "claimant_name" = some "John Smith" ∧
    dictGet (extract_key_fields scenarioA) "incident_date" = some "12/05/2023" ∧
    dictGet (extract_key_fields scenarioA) "policy_number" = some "Holder" ∧
    dictGet (extract_key_fields scenarioA) "claim_amount" = some "54,300" := by
  exact ⟨rfl, rfl, rfl, rfl⟩

/-! ## The capture group always participates (C5 machinery) -/

/-- `mandG r = true` when every match of `r` necessarily passes through a
capture group. -/
def mandG : RE → Bool
  | .eps => false
  | .cls _ => false
  | .cat a b => mandG a || mandG b
  | .alt a b => mandG a && mandG b
  | .opt _ => false
  | .star _ => false
  | .rep r lo hi => (decide (0 < lo) && decide (0 < hi)) && mandG r
  | .group _ => true

lemma capOr_isSome (x y : Option (List Char)) :
    (capOr x y).isSome = (x.isSome || y.isSome) := by
  cases x <;> simp [capOr]

/-- A `{lo,hi}` repetition with `lo, hi ≥ 1` whose body always sets the
capture sets the capture. -/
lemma repRuns_isSome (f : List Char → List MRes)
    (hf : ∀ t x, x ∈ f t → x.2.isSome = true) (lo hi : Nat) (s : List Char)
    (res : MRes) (hlo : 0 < lo) (hhi : 0 < hi)
    (hres : res ∈ repRuns f lo hi s) : res.2.isSome = true := by
  cases lo with
  | zero => omega
  | succ lo' =>
      cases hi with
      | zero => simp [repRuns] at hres
      | succ hi' =>
          simp only [repRuns] at hres
          rcases List.mem_flatMap.mp hres with ⟨a, ha, hb⟩
          rcases List.mem_map.mp hb with ⟨b, _, hb'⟩
          rw [← hb']
          simp [capOr_isSome, hf s a ha]

/-- Every match of a regex with a mandatory group records a capture. -/
lemma runs_mand : ∀ r : RE, mandG r = true →
    ∀ s res, res ∈ runs r s → res.2.isSome = true := by
  intro r
  induction r with
  | eps => intro h; simp [mandG] at h
  | cls p => intro h; simp [mandG] at h
  | cat a b iha ihb =>
      intro h s res hres
      simp only [runs] at hres
      rcases List.mem_flatMap.mp hres with ⟨x, hx, hy⟩
      rcases List.mem_map.mp hy with ⟨y, hy', hxy⟩
      rw [← hxy]
      simp only [mandG, Bool.or_eq_true] at h
      rcases h with h | h
      · simp [capOr_isSome, iha h s x hx]
      · simp [capOr_isSome, ihb h x.1 y hy']
  | alt a b iha ihb =>
      intro h s res hres
      simp only [mandG, Bool.and_eq_true] at h
      simp only [runs, List.mem_append] at hres
      rcases hres with hres | hres
      · exact iha h.1 s res hres
      · exact ihb h.2 s res hres
  | opt r ih => intro h; simp [mandG] at h
  | star r ih => intro h; simp [mandG] at h
  | rep r lo hi ih =>
      intro h s res hres
      simp only [mandG, Bool.and_eq_true, decide_eq_true_eq] at h
      exact repRuns_isSome _ (fun t x hx => ih h.2 t x hx) lo hi s res h.1.1 h.1.2 hres
  | group r ih =>
      intro h s res hres
      simp only [runs] at hres
      rcases List.mem_map.mp hres with ⟨a, _, ha⟩
      rw [← ha]
      rfl

/-- A successful search reports the capture of some run at some suffix. -/
lemma searchM_cases (r : RE) :
    ∀ s, searchM r s = none ∨
      ∃ s' res, res ∈ runs r s' ∧ searchM r s = some res.2 := by
  intro s
  induction s with
  | nil =>
      cases hr : runs r [] with
      | nil => exact Or.inl (by simp [searchM, hr])
      | cons a u =>
          refine Or.inr ⟨[], a, by rw [hr]; exact List.mem_cons_self a u, ?_⟩
          obtain ⟨a1, a2⟩ := a
          simp [searchM, hr]
  | cons c t ih =>
      cases hr : runs r (c :: t) with
      | nil =>
          have hstep : searchM r (c :: t) = searchM r t := by
            simp [searchM, hr]
          rcases ih with h | ⟨s', res, hres, heq⟩
          · exact Or.inl (hstep.trans h)
          · exact Or.inr ⟨s', res, hres, hstep.trans heq⟩
      | cons a u =>
          refine Or.inr ⟨c :: t, a, by rw [hr]; exact List.mem_cons_self a u, ?_⟩
          obtain ⟨a1, a2⟩ := a
          simp [searchM, hr]

/-- With a mandatory group, a search never returns a match whose group did
not participate — `m.group(1)` is never Python `None`. -/
lemma searchM_not_some_none (r : RE) (h : mandG r = true) (s : List Char) :
    searchM r s ≠ some none := by
  rcases searchM_cases r s with hc | ⟨s', res, hres, heq⟩
  · simp [hc]
  · rw [heq]
    intro hcon
    have hsome := runs_mand r h s' res hres
    rw [Option.some_inj.mp hcon] at hsome
    simp at hsome

/-- The exception-explicit single-pattern extraction never raises for the
module's patterns. -/
lemma tryPatternE_ok (r : RE) (h : mandG r = true) (s : List Char) :
    tryPatternE r s = Except.ok (tryPattern r s) := by
  unfold tryPatternE tryPattern
  cases hs : searchM r s with
  | none => rfl
  | some cap =>
      cases cap with
      | none => exact absurd hs (searchM_not_some_none r h s)
      | some g => rfl

/-- All six amount patterns have a mandatory group. -/
lemma amount_mand : ∀ p ∈ AMOUNT_PATTERNS, mandG p = true := by decide

lemma firstAmountE_ok :
    ∀ ps, (∀ p ∈ ps, mandG p = true) →
      ∀ s, firstAmountE ps s = Except.ok (firstAmount ps s) := by
  intro ps
  induction ps with
  | nil => intro _ s; rfl
  | cons p pt ih =>
      intro h s
      simp only [firstAmountE, firstAmount]
      rw [tryPatternE_ok p (h p (List.mem_cons_self p pt)) s]
      cases htp : tryPattern p s with
      | some v => rfl
      | none => exact ih (fun q hq => h q (List.mem_cons_of_mem p hq)) s

lemma dateE_ok (s : List Char) : dateE s = Except.ok (datePlain s) := by
  unfold dateE datePlain
  rw [tryPatternE_ok P_date1 (by decide) s, tryPatternE_ok P_date2 (by decide) s,
    tryPatternE_ok P_date3 (by decide) s]
  cases tryPattern P_date1 s <;> cases tryPattern P_date2 s <;>
    cases tryPattern P_date3 s <;> rfl

lemma nameE_ok (s : List Char) : nameE s = Except.ok (namePlain s) := by
  unfold nameE namePlain
  rw [tryPatternE_ok P_name1 (by decide) s, tryPatternE_ok P_name2 (by decide) s]
  cases tryPattern P_name1 s <;> cases tryPattern P_name2 s <;> rfl

/-- **C5.** All three functions are total.  `extract_key_fields`'s only
latent raise point (`m.group(1)` returning `None`, whose `.strip()` would
raise `AttributeError`) is unreachable, so the exception-explicit embedding
always returns `ok` with the plain result; the other two functions return a
result for every record pair and every integer threshold. -/
theorem diff_extractor_functions_total :
    (∀ text : String, extract_key_fieldsE text = Except.ok (extract_key_fields text)) ∧
    (∀ nf ef : FieldRecord, ∃ ds : List DiffEntry, compute_differences nf ef = ds) ∧
    (∀ (nf ef : FieldRecord) (m : Int),
       key_fields_indicate_different_claim nf ef m = true ∨
       key_fields_indicate_different_claim nf ef m = false) := by
  refine ⟨?_, fun nf ef => ⟨_, rfl⟩, fun nf ef m => ?_⟩
  · intro text
    unfold extract_key_fieldsE extract_key_fields
    simp only [firstAmountE_ok AMOUNT_PATTERNS amount_mand, nameE_ok, dateE_ok,
      tryPatternE_ok P_policy (by decide)]
  · cases key_fields_indicate_different_claim nf ef m
    · exact Or.inr rfl
    · exact Or.inl rfl

/-! ## The amount field is the first matching pattern's capture (C3) -/

lemma dictGet_claim_amount (text : String) :
    dictGet (extract_key_fields text) "claim_amount" =
      firstAmount AMOUNT_PATTERNS text.data := rfl

lemma tryPattern_eq_none (p : RE) (s : List Char) :
    tryPattern p s = none ↔ searchM p s = none := by
  unfold tryPattern
  cases searchM p s <;> simp

/-- The loop returns null exactly when no pattern matches anywhere. -/
lemma firstAmount_none_iff (ps : List RE) (s : List Char) :
    firstAmount ps s = none ↔ ∀ p ∈ ps, searchM p s = none := by
  induction ps with
  | nil => simp [firstAmount]
  | cons p pt ih =>
      simp only [firstAmount]
      cases htp : tryPattern p s with
      | some w =>
          refine iff_of_false (by simp) (fun hall => ?_)
          have hnone := hall p (List.mem_cons_self p pt)
          rw [(tryPattern_eq_none p s).mpr hnone] at htp
          exact Option.noConfusion htp
      | none =>
          rw [ih]
          constructor
          · intro hall q hq
            rcases List.mem_cons.mp hq with rfl | hq'
            · exact (tryPattern_eq_none q s).mp htp
            · exact hall q hq'
          · intro hall q hq
            exact hall q (List.mem_cons_of_mem p hq)

/-- When the loop returns a value, it is the trimmed capture of the first
matching pattern: all earlier patterns fail everywhere in the text. -/
lemma firstAmount_some (ps : List RE) (s : List Char) (v : String)
    (hm : ∀ p ∈ ps, mandG p = true) (h : firstAmount ps s = some v) :
    ∃ i : Fin ps.length,
      (∀ j : Fin ps.length, j.val < i.val → searchM (ps.get j) s = none) ∧
      ∃ g : List Char, searchM (ps.get i) s = some (some g) ∧
        v = String.mk (pyStrip g) := by
  induction ps with
  | nil => simp [firstAmount] at h
  | cons p pt ih =>
      simp only [firstAmount] at h
      cases htp : tryPattern p s with
      | some w =>
          rw [htp] at h
          have hvw : w = v := Option.some_inj.mp h
          refine ⟨⟨0, by simp⟩, fun j hj => absurd hj (Nat.not_lt_zero j.val), ?_⟩
          unfold tryPattern at htp
          cases hs : searchM p s with
          | none => rw [hs] at htp; exact absurd htp (by simp)
          | some cap =>
              cases cap with
              | none =>
                  exact absurd hs
                    (searchM_not_some_none p (hm p (List.mem_cons_self p pt)) s)
              | some g =>
                  rw [hs] at htp
                  refine ⟨g, hs, ?_⟩
                  rw [← hvw]
                  exact (Option.some_inj.mp htp).symm
      | none =>
          rw [htp] at h
          rcases ih (fun q hq => hm q (List.mem_cons_of_mem p hq)) h with
            ⟨i, hmiss, g, hg, hv⟩
          refine ⟨⟨i.val + 1, by simp⟩, ?_, ⟨g, hg, hv⟩⟩
          intro j hj
          rcases j with ⟨jv, hjlt⟩
          cases jv with
          | zero => exact (tryPattern_eq_none p s).mp htp
          | succ jv' =>
              have hlt : jv' < i.val := by
                have := hj
                simp at this
                omega
              exact hmiss ⟨jv', by simpa using hjlt⟩ hlt

/-- **C3.** The `claim_amount` field is null iff none of the six amount
patterns matches anywhere in the text; otherwise it is the trimmed first
capture group of the first pattern (in the module's fixed order
`AMOUNT_PATTERNS`) that matches. -/
theorem claim_amount_ordered_first_match (text : String) :
    (dictGet (extract_key_fields text) "claim_amount" = none ↔
       ∀ p ∈ AMOUNT_PATTERNS, searchM p text.data = none) ∧
    ∀ v : String, dictGet (extract_key_fields text) "claim_amount" = some v →
      ∃ i : Fin AMOUNT_PATTERNS.length,
        (∀ j : Fin AMOUNT_PATTERNS.length, j.val < i.val →
           searchM (AMOUNT_PATTERNS.get j) text.data = none) ∧
        ∃ g : List Char, searchM (AMOUNT_PATTERNS.get i) text.data = some (some g) ∧
          v = String.mk (pyStrip g) := by
  constructor
  · rw [dictGet_claim_amount]
    exact firstAmount_none_iff AMOUNT_PATTERNS text.data
  · intro v hv
    rw [dictGet_claim_amount] at hv
    exact firstAmount_some AMOUNT_PATTERNS text.data v amount_mand hv

theorem claim_amount_ordered_first_match_witness :
    dictGet (extract_key_fields "Rs 500") "claim_amount" = some "500" ∧
    ∃ i : Fin AMOUNT_PATTERNS.length,
      (∀ j : Fin AMOUNT_PATTERNS.length, j.val < i.val →
         searchM (AMOUNT_PATTERNS.get j) "Rs 500".data = none) ∧
      ∃ g : List Char, searchM (AMOUNT_PATTERNS.get i) "Rs 500".data = some (some g) ∧
        ("500" : String) = String.mk (pyStrip g) :=
  ⟨by rfl, (claim_amount_ordered_first_match "Rs 500").2 "500" (by rfl)⟩

/-! ## Capture-length bound (C10 machinery) -/

/-- An upper bound on how many characters a regex can consume
(`none` = unbounded, from `*`). -/
def maxCons : RE → Option Nat
  | .eps => some 0
  | .cls _ => some 1
  | .cat a b =>
      match maxCons a, maxCons b with
      | some m, some k => some (m + k)
      | _, _ => none
  | .alt a b =>
      match maxCons a, maxCons b with
      | some m, some k => some (max m k)
      | _, _ => none
  | .opt r => maxCons r
  | .star _ => none
  | .rep r _ hi => (maxCons r).map (fun m => hi * m)
  | .group r => maxCons r

lemma capOr_eq_some (x y : Option (List Char)) (c : List Char)
    (h : capOr x y = some c) : x = some c ∨ (x = none ∧ y = some c) := by
  cases x with
  | some cx => exact Or.inl h
  | none => exact Or.inr ⟨rfl, h⟩

/-- A bounded repetition of a bounded body consumes at most `hi * m`. -/
lemma repRuns_consume (f : List Char → List MRes) (m : Nat)
    (hf : ∀ t x, x ∈ f t → t.length ≤ x.1.length + m) :
    ∀ (hi lo : Nat) (s : List Char) (res : MRes),
      res ∈ repRuns f lo hi s → s.length ≤ res.1.length + hi * m := by
  intro hi
  induction hi with
  | zero =>
      intro lo s res h
      cases lo with
      | zero =>
          simp [repRuns] at h
          rw [h]
          simp
      | succ lo' => simp [repRuns] at h
  | succ hi' ih =>
      intro lo s res h
      have hmul : (hi' + 1) * m = hi' * m + m := Nat.succ_mul hi' m
      cases lo with
      | zero =>
          simp only [repRuns] at h
          rcases List.mem_append.mp h with h | h
          · rcases List.mem_flatMap.mp h with ⟨a, ha, hb⟩
            rcases List.mem_map.mp hb with ⟨b, hb', hbe⟩
            have h1 := hf s a ha
            have h2 := ih 0 a.1 b hb'
            rw [← hbe]
            show s.length ≤ b.1.length + (hi' + 1) * m
            omega
          · simp at h
            rw [h]
            simp
      | succ lo' =>
          simp only [repRuns] at h
          rcases List.mem_flatMap.mp h with ⟨a, ha, hb⟩
          rcases List.mem_map.mp hb with ⟨b, hb', hbe⟩
          have h1 := hf s a ha
          have h2 := ih lo' a.1 b hb'
          rw [← hbe]
          show s.length ≤ b.1.length + (hi' + 1) * m
          omega

/-- `maxCons` is a sound consumption bound. -/
lemma maxCons_sound : ∀ r : RE, ∀ m : Nat, maxCons r = some m →
    ∀ s res, res ∈ runs r s → s.length ≤ res.1.length + m := by
  intro r
  induction r with
  | eps =>
      intro m hm s res h
      simp [maxCons] at hm
      simp [runs] at h
      rw [h, ← hm]
      simp
  | cls p =>
      intro m hm s res h
      simp [maxCons] at hm
      simp only [runs] at h
      cases s with
      | nil => simp at h
      | cons c t =>
          by_cases hp : p c
          · simp [hp] at h
            rw [h, ← hm]
            simp
          · simp [hp] at h
  | cat a b iha ihb =>
      intro m hm s res h
      simp only [maxCons] at hm
      cases hma : maxCons a with
      | none => rw [hma] at hm; simp at hm
      | some ma =>
          cases hmb : maxCons b with
          | none => rw [hma, hmb] at hm; simp at hm
          | some mb =>
              rw [hma, hmb] at hm
              have hm' : ma + mb = m := by simpa using hm
              simp only [runs] at h
              rcases List.mem_flatMap.mp h with ⟨x, hx, hy⟩
              rcases List.mem_map.mp hy with ⟨y, hy', hye⟩
              have h1 := iha ma hma s x hx
              have h2 := ihb mb hmb x.1 y hy'
              rw [← hye]
              show s.length ≤ y.1.length + m
              omega
  | alt a b iha ihb =>
      intro m hm s res h
      simp only [maxCons] at hm
      cases hma : maxCons a with
      | none => rw [hma] at hm; simp at hm
      | some ma =>
          cases hmb : maxCons b with
          | none => rw [hma, hmb] at hm; simp at hm
          | some mb =>
              rw [hma, hmb] at hm
              have hm' : max ma mb = m := by simpa using hm
              simp only [runs] at h
              rcases List.mem_append.mp h with h | h
              · have := iha ma hma s res h
                have : ma ≤ max ma mb := le_max_left _ _
                omega
              · have := ihb mb hmb s res h
                have : mb ≤ max ma mb := le_max_right _ _
                omega
  | opt r ih =>
      intro m hm s res h
      have hm' : maxCons r = some m := hm
      simp only [runs] at h
      rcases List.mem_append.mp h with h | h
      · exact ih m hm' s res h
      · simp at h
        rw [h]
        simp
  | star r ih => intro m hm; simp [maxCons] at hm
  | rep r lo hi ih =>
      intro m hm s res h
      simp only [maxCons] at hm
      cases hmr : maxCons r with
      | none => rw [hmr] at hm; simp at hm
      | some mr =>
          rw [hmr] at hm
          have hm' : hi * mr = m := by simpa using hm
          simp only [runs] at h
          have := repRuns_consume (fun t => runs r t) mr
            (fun t x hx => ih mr hmr t x hx) hi lo s res h
          omega
  | group r ih =>
      intro m hm s res h
      have hm' : maxCons r = some m := hm
      simp only [runs] at h
      rcases List.mem_map.mp h with ⟨a, ha, hae⟩
      have := ih m hm' s a ha
      rw [← hae]
      show s.length ≤ a.1.length + m
      exact this

/-- `capB n r = true` when every capture the group of `r` can record has at
most `n` characters. -/
def capB (n : Nat) : RE → Bool
  | .eps => true
  | .cls _ => true
  | .cat a b => capB n a && capB n b
  | .alt a b => capB n a && capB n b
  | .opt r => capB n r
  | .star r => capB n r
  | .rep r _ _ => capB n r
  | .group r =>
      match maxCons r with
      | some m => decide (m ≤ n) && capB n r
      | none => false

lemma starRuns_capB (f : List Char → List MRes) (n : Nat)
    (hf : ∀ t x c, x ∈ f t → x.2 = some c → c.length ≤ n) :
    ∀ fuel s res c, res ∈ starRuns f fuel s → res.2 = some c → c.length ≤ n := by
  intro fuel
  induction fuel with
  | zero =>
      intro s res c h hc
      simp [starRuns] at h
      rw [h] at hc
      simp at hc
  | succ fu ih =>
      intro s res c h hc
      simp only [starRuns] at h
      rcases List.mem_append.mp h with h | h
      · rcases List.mem_flatMap.mp h with ⟨a, ha, hb⟩
        have ha' : a ∈ f s := (List.mem_filter.mp ha).1
        rcases List.mem_map.mp hb with ⟨b, hb', hbe⟩
        rw [← hbe] at hc
        have hc' : capOr b.2 a.2 = some c := hc
        rcases capOr_eq_some _ _ _ hc' with h1 | ⟨_, h2⟩
        · exact ih a.1 b c hb' h1
        · exact hf s a c ha' h2
      · simp at h
        rw [h] at hc
        simp at hc

lemma repRuns_capB (f : List Char → List MRes) (n : Nat)
    (hf : ∀ t x c, x ∈ f t → x.2 = some c → c.length ≤ n) :
    ∀ hi lo s res c, res ∈ repRuns f lo hi s → res.2 = some c → c.length ≤ n := by
  intro hi
  induction hi with
  | zero =>
      intro lo s res c h hc
      cases lo with
      | zero =>
          simp [repRuns] at h
          rw [h] at hc
          simp at hc
      | succ lo' => simp [repRuns] at h
  | succ hi' ih =>
      intro lo s res c h hc
      cases lo with
      | zero =>
          simp only [repRuns] at h
          rcases List.mem_append.mp h with h | h
          · rcases List.mem_flatMap.mp h with ⟨a, ha, hb⟩
            rcases List.mem_map.mp hb with ⟨b, hb', hbe⟩
            rw [← hbe] at hc
            have hc' : capOr b.2 a.2 = some c := hc
            rcases capOr_eq_some _ _ _ hc' with h1 | ⟨_, h2⟩
            · exact ih 0 a.1 b c hb' h1
            · exact hf s a c ha h2
          · simp at h
            rw [h] at hc
            simp at hc
      | succ lo' =>
          simp only [repRuns] at h
          rcases List.mem_flatMap.mp h with ⟨a, ha, hb⟩
          rcases List.mem_map.mp hb with ⟨b, hb', hbe⟩
          rw [← hbe] at hc
          have hc' : capOr b.2 a.2 = some c := hc
          rcases capOr_eq_some _ _ _ hc' with h1 | ⟨_, h2⟩
          · exact ih lo' a.1 b c hb' h1
          · exact hf s a c ha h2

/-- `capB` is a sound capture bound. -/
lemma capB_sound : ∀ r : RE, ∀ n : Nat, capB n r = true →
    ∀ s res c, res ∈ runs r s → res.2 = some c → c.length ≤ n := by
  intro r
  induction r with
  | eps =>
      intro n _ s res c h hc
      simp [runs] at h
      rw [h] at hc
      simp at hc
  | cls p =>
      intro n _ s res c h hc
      simp only [runs] at h
      cases s with
      | nil => simp at h
      | cons c' t =>
          by_cases hp : p c'
          · simp [hp] at h
            rw [h] at hc
            simp at hc
          · simp [hp] at h
  | cat a b iha ihb =>
      intro n hcap s res c h hc
      simp only [capB, Bool.and_eq_true] at hcap
      simp only [runs] at h
      rcases List.mem_flatMap.mp h with ⟨x, hx, hy⟩
      rcases List.mem_map.mp hy with ⟨y, hy', hye⟩
      rw [← hye] at hc
      have hc' : capOr y.2 x.2 = some c := hc
      rcases capOr_eq_some _ _ _ hc' with h1 | ⟨_, h2⟩
      · exact ihb n hcap.2 x.1 y c hy' h1
      · exact iha n hcap.1 s x c hx h2
  | alt a b iha ihb =>
      intro n hcap s res c h hc
      simp only [capB, Bool.and_eq_true] at hcap
      simp only [runs] at h
      rcases List.mem_append.mp h with h | h
      · exact iha n hcap.1 s res c h hc
      · exact ihb n hcap.2 s res c h hc
  | opt r ih =>
      intro n hcap s res c h hc
      have hcap' : capB n r = true := hcap
      simp only [runs] at h
      rcases List.mem_append.mp h with h | h
      · exact ih n hcap' s res c h hc
      · simp at h
        rw [h] at hc
        simp at hc
  | star r ih =>
      intro n hcap s res c h hc
      have hcap' : capB n r = true := hcap
      simp only [runs] at h
      exact starRuns_capB _ n (fun t x c' hx hc' => ih n hcap' t x c' hx hc')
        s.length s res c h hc
  | rep r lo hi ih =>
      intro n hcap s res c h hc
      have hcap' : capB n r = true := hcap
      simp only [runs] at h
      exact repRuns_capB _ n (fun t x c' hx hc' => ih n hcap' t x c' hx hc')
        hi lo s res c h hc
  | group r ih =>
      intro n hcap s res c h hc
      simp only [capB] at hcap
      cases hmr : maxCons r with
      | none => rw [hmr] at hcap; simp at hcap
      | some m =>
          rw [hmr] at hcap
          simp only [Bool.and_eq_true, decide_eq_true_eq] at hcap
          simp only [runs] at h
          rcases List.mem_map.mp h with ⟨a, ha, hae⟩
          rw [← hae] at hc
          have hcc : s.take (s.length - a.1.length) = c := by simpa using hc
          have hcons := maxCons_sound r m hmr s a ha
          rw [← hcc]
          have htk : (s.take (s.length - a.1.length)).length ≤ s.length - a.1.length := by
            rw [List.length_take]
            exact min_le_left _ _
          omega

lemma pyStrip_length_le (l : List Char) : (pyStrip l).length ≤ l.length := by
  unfold pyStrip
  calc ((l.dropWhile isPySpace).reverse.dropWhile isPySpace).reverse.length
      = ((l.dropWhile isPySpace).reverse.dropWhile isPySpace).length :=
        List.length_reverse _
    _ ≤ (l.dropWhile isPySpace).reverse.length :=
        (List.dropWhile_sublist isPySpace).length_le
    _ = (l.dropWhile isPySpace).length := List.length_reverse _
    _ ≤ l.length := (List.dropWhile_sublist isPySpace).length_le

/-- A successful `tryPattern` with a mandatory, `n`-bounded group yields a
string of at most `n` characters. -/
lemma tryPattern_length_le (r : RE) (n : Nat) (hm : mandG r = true)
    (hb : capB n r = true) (s : List Char) (v : String)
    (h : tryPattern r s = some v) : v.length ≤ n := by
  unfold tryPattern at h
  cases hs : searchM r s with
  | none => rw [hs] at h; exact absurd h (by simp)
  | some cap =>
      rw [hs] at h
      cases cap with
      | none => exact absurd hs (searchM_not_some_none r hm s)
      | some g =>
          have hv : String.mk (pyStrip g) = v := by simpa using h
          rcases searchM_cases r s with hc | ⟨s', res, hres, heq⟩
          · rw [hc] at hs; exact Option.noConfusion hs
          · rw [heq] at hs
            have hres2 : res.2 = some g := Option.some_inj.mp hs
            have hg := capB_sound r n hb s' res g hres hres2
            rw [← hv]
            calc (String.mk (pyStrip g)).length = (pyStrip g).length := rfl
              _ ≤ g.length := pyStrip_length_le g
              _ ≤ n := hg

/-- **C10.** A non-null `claimant_name` has at most 50 characters (the
`[A-Za-z\s]{2,50}` capture bounds it before the `[:80]` truncation, which is
therefore never effective), and an all-whitespace capture strips to the empty
string (e.g. for the text `"name:   "`). -/
theorem claimant_name_at_most_50 :
    (∀ (text : String) (v : String),
       dictGet (extract_key_fields text) "claimant_name" = some v →
       v.length ≤ 50) ∧
    dictGet (extract_key_fields "name:   ") "claimant_name" = some "" := by
  constructor
  · intro text v h
    have hd : dictGet (extract_key_fields text) "claimant_name" =
        (namePlain text.data).map (fun w => String.mk (w.data.take 80)) := rfl
    rw [hd] at h
    cases hn : namePlain text.data with
    | none => rw [hn] at h; exact absurd h (by simp)
    | some w =>
        rw [hn] at h
        have hv : String.mk (w.data.take 80) = v := by simpa using h
        have hw : w.length ≤ 50 := by
          unfold namePlain at hn
          cases h1 : tryPattern P_name1 text.data with
          | some u =>
              rw [h1] at hn
              have hu : u = w := Option.some_inj.mp hn
              exact hu ▸ tryPattern_length_le P_name1 50 (by decide) (by decide)
                text.data u h1
          | none =>
              rw [h1] at hn
              exact tryPattern_length_le P_name2 50 (by decide) (by decide)
                text.data w hn
        rw [← hv]
        calc (String.mk (w.data.take 80)).length = (w.data.take 80).length := rfl
          _ ≤ w.data.length := by
              rw [List.length_take]
              exact min_le_right _ _
          _ ≤ 50 := hw
  · rfl

theorem claimant_name_at_most_50_witness :
    dictGet (extract_key_fields "Policy Holder Name: John Smith") "claimant_name" =
      some "John Smith" ∧
    ("John Smith" : String).length ≤ 50 :=
  ⟨by rfl, claimant_name_at_most_50.1 "Policy Holder Name: John Smith"
    "John Smith" (by rfl)⟩
